import Mathlib

/-!
Shallow embedding of the history-simplification core of the git-tree
repository (file src/src-tauri/src/git.rs).  The embedding covers the
pure data transformation performed by get_commits on the loaded commit
window (lines 108-179), the ref classification used to build the
ref map (lines 36-74), and the error path of checkout_ref
(lines 182-194).  Repository access (libgit2 calls) is the external
collaborator and is modelled abstractly where a claim needs it.
-/

/-- Mirrors struct RefInfo in git.rs: a symbolic reference annotation on a
commit, with its display name and kind string. -/
structure RefInfo where
  name : String
  kind : String
deriving DecidableEq

/-- Mirrors struct CommitInfo in git.rs: one commit of the loaded window. -/
structure CommitInfo where
  oid : String
  parents : List String
  author : String
  email : String
  date : Int
  message : String
  refs : List RefInfo
deriving DecidableEq

/-- The retention predicate of get_commits (lines 122-126 and 140-144):
a commit is interesting iff it has at least one ref, or is a merge
(more than one parent), or is a root (no parents). -/
def interesting (c : CommitInfo) : Bool :=
  !c.refs.isEmpty || decide (c.parents.length > 1) || c.parents.isEmpty

/-- The commit_map HashMap of get_commits (lines 113-116): id to CommitInfo,
inserted in window order, a later insert overwriting an earlier one, so a
lookup returns the last commit of the window bearing the id. -/
def commit_map (all_commits : List CommitInfo) (oid : String) : Option CommitInfo :=
  all_commits.reverse.find? (fun c => c.oid == oid)

/-- The four ways the ancestor-walk loop of get_commits (lines 135-162) can
exit: pushing the id of an interesting in-window ancestor (line 146),
pushing an out-of-window id as an edge stub (line 159), breaking on the
cycle guard (line 136), or breaking on an in-window ancestor that is not
interesting and has no parents (line 153). -/
inductive WalkExit where
  | resolved (oid : String)
  | stub (oid : String)
  | cycle
  | deadEnd
deriving DecidableEq

/-- The ancestor-walk loop of get_commits (lines 132-162): starting from a
parent id, repeatedly look the running id up in commit_map; an interesting
hit resolves the walk, a missing id is an edge stub, a revisited id trips
the cycle guard, and a non-interesting hit continues with its first parent.
Termination: each iteration either exits or moves on after adding a fresh
id drawn from the finite set of window ids to the seen set. -/
def ancestor_walk (all_commits : List CommitInfo) (seen : List String) (runner : String) :
    WalkExit :=
  if h : runner ∈ seen then WalkExit.cycle
  else
    match h2 : commit_map all_commits runner with
    | some ancestor =>
      if interesting ancestor then WalkExit.resolved runner
      else
        match ancestor.parents with
        | p :: _ => ancestor_walk all_commits (runner :: seen) p
        | [] => WalkExit.deadEnd
    | none => WalkExit.stub runner
termination_by ((all_commits.map (fun c => c.oid)).toFinset \ seen.toFinset).card
decreasing_by
  simp only [List.toFinset_cons]
  have hmem : runner ∈ (all_commits.map (fun c => c.oid)).toFinset := by
    have h1 := List.mem_of_find?_eq_some h2
    have h3 := List.find?_some h2
    have h4 : ancestor.oid = runner := by simpa using h3
    exact List.mem_toFinset.mpr (h4 ▸ List.mem_map_of_mem _ (List.mem_reverse.mp h1))
  have hsub : (all_commits.map (fun c => c.oid)).toFinset \ insert runner seen.toFinset
      ⊆ (all_commits.map (fun c => c.oid)).toFinset \ seen.toFinset := by
    intro x hx
    simp only [Finset.mem_sdiff, Finset.mem_insert, not_or] at hx
    exact Finset.mem_sdiff.mpr ⟨hx.1, hx.2.2⟩
  have hr : runner ∈ (all_commits.map (fun c => c.oid)).toFinset \ seen.toFinset :=
    Finset.mem_sdiff.mpr ⟨hmem, by simpa using h⟩
  have hnr : runner ∉ (all_commits.map (fun c => c.oid)).toFinset \ insert runner seen.toFinset := by
    simp
  exact Finset.card_lt_card ((Finset.ssubset_iff_of_subset hsub).mpr ⟨runner, hr, hnr⟩)

/-- Fuel-counting mirror of the ancestor-walk loop: each loop iteration
consumes one unit of fuel, and none means the fuel ran out before the loop
exited.  Used to state and prove the step bound on the walk. -/
def walkFuel (all_commits : List CommitInfo) : Nat → List String → String → Option WalkExit
  | 0, _, _ => none
  | fuel + 1, seen, runner =>
    if runner ∈ seen then some WalkExit.cycle
    else
      match commit_map all_commits runner with
      | some ancestor =>
        if interesting ancestor then some (WalkExit.resolved runner)
        else
          match ancestor.parents with
          | p :: _ => walkFuel all_commits fuel (runner :: seen) p
          | [] => some WalkExit.deadEnd
      | none => some (WalkExit.stub runner)

/-- Step bound used for the walk: the number of distinct window ids not yet
in the seen set, plus one for the final exiting iteration. -/
def walk_bound (all_commits : List CommitInfo) (seen : List String) : Nat :=
  ((all_commits.map (fun c => c.oid)).toFinset \ seen.toFinset).card + 1

/-- The net effect of one walk (lines 131-163) on the new_parents vector:
a resolved ancestor or an edge stub pushes one id, the cycle guard and the
dead-end break push nothing. -/
def resolve_parent (all_commits : List CommitInfo) (parent_oid : String) : Option String :=
  match ancestor_walk all_commits [] parent_oid with
  | WalkExit.resolved o => some o
  | WalkExit.stub o => some o
  | WalkExit.cycle => none
  | WalkExit.deadEnd => none

/-- Mirrors Vec dedup (line 166): removes consecutive duplicate ids, which
after the sort on line 165 removes all duplicates. -/
def dedupConsec : List String → List String
  | [] => []
  | [x] => [x]
  | x :: y :: rest => if x == y then dedupConsec (y :: rest) else x :: dedupConsec (y :: rest)

/-- Lines 127-168 for one retained commit: resolve each original parent
independently, then sort ascending (line 165, insertion sort is
extensionally the sort used, both produce the unique ordered permutation)
and drop consecutive duplicates (line 166); all other fields are copied
unchanged from the input commit (clone on line 127). -/
def reduce_commit (all_commits : List CommitInfo) (commit : CommitInfo) : CommitInfo :=
  { commit with
    parents :=
      dedupConsec (List.insertionSort (fun a b : String => a ≤ b)
        (commit.parents.filterMap (resolve_parent all_commits))) }

/-- The simplified_commits vector of get_commits (lines 118-171): every
interesting commit of the window, in window order, with parents rewritten
by reduce_commit; non-interesting commits are dropped. -/
def simplified_commits (all_commits : List CommitInfo) : List CommitInfo :=
  all_commits.filterMap (fun commit =>
    if interesting commit then some (reduce_commit all_commits commit) else none)

/-- The overall window transformation of get_commits (lines 108-179):
simplify, but fall back to the entire unsimplified window when the
simplified list is empty and the window is not (lines 175-177). -/
def get_commits (all_commits : List CommitInfo) : List CommitInfo :=
  if (simplified_commits all_commits).isEmpty && !all_commits.isEmpty then
    all_commits
  else
    simplified_commits all_commits

/-- Forgets the parents field of a commit, keeping every other field; used
to state that simplification rewrites only the parent list. -/
def eraseParents (c : CommitInfo) : CommitInfo :=
  { c with parents := [] }

/-- Reachability along first-parent links through non-interesting in-window
commits: the path the ancestor walk is allowed to take. -/
inductive Reach (all_commits : List CommitInfo) : String → String → Prop where
  | refl (a : String) : Reach all_commits a a
  | step (a b c : String) (ac : CommitInfo) (hm : commit_map all_commits a = some ac)
      (hi : interesting ac = false) (hp : ac.parents.head? = some b)
      (h : Reach all_commits b c) : Reach all_commits a c

/-- Abstract view of one libgit2 reference as consumed by the ref-indexing
loop of get_commits (lines 36-62): its full name, shorthand, direct target
commit id when it has one, and the three classification flags. -/
structure GitReference where
  name : Option String
  shorthand : Option String
  target : Option String
  is_remote : Bool
  is_tag : Bool
  is_branch : Bool

/-- The kind classification of get_commits (lines 40-48), evaluated in this
precedence: remote, then tag, then branch, then other. -/
def ref_kind (r : GitReference) : String :=
  if r.is_remote then "remote"
  else if r.is_tag then "tag"
  else if r.is_branch then "branch"
  else "other"

/-- The ref_map entries produced by the reference loop (lines 36-62) in
discovery order: a reference lacking a name or a direct target is silently
skipped, otherwise it yields its target id paired with a RefInfo whose name
is the shorthand (falling back to the full name) and whose kind comes from
ref_kind. -/
def ref_entries (refs : List GitReference) : List (String × RefInfo) :=
  refs.filterMap (fun r =>
    match r.name, r.target with
    | some name, some target =>
        some (target, { name := r.shorthand.getD name, kind := ref_kind r })
    | _, _ => none)

/-- The annotation list a given commit id receives in ref_map: the entries
of the reference loop targeting it, in discovery order, followed by the
HEAD annotation (lines 64-74) when HEAD resolves to this id.  HEAD is
processed after the reference loop, so its annotation is appended after
any branch or tag annotation the commit already carries. -/
def ref_annotations_at (refs : List GitReference) (head_target : Option String)
    (oid : String) : List RefInfo :=
  (ref_entries refs).filterMap (fun e => if e.1 = oid then some e.2 else none)
  ++ (match head_target with
      | some h => if h = oid then [{ name := "HEAD", kind := "HEAD" }] else []
      | none => [])

/-- Abstract view of the reference object returned by revparse_ext in
checkout_ref (line 191): its name (the source unwraps it on the branch
path) and whether it is a branch. -/
structure GitRefObj where
  name : String
  is_branch : Bool

/-- Abstract view of a successful revparse_ext result (line 191): the
resolved object id and the optional reference object. -/
structure RevparseResult where
  objectId : String
  refObj : Option GitRefObj

/-- A state-changing collaborator call made by checkout_ref: checking out a
tree, setting the symbolic HEAD, or detaching HEAD. -/
inductive RepoEffect where
  | checkoutTree (objectId : String)
  | setHead (name : String)
  | setHeadDetached (objectId : String)
deriving DecidableEq

/-- Abstract repository collaborator for checkout_ref: how revparse_ext
resolves an argument, and which collaborator calls fail (some errormessage)
or succeed (none). -/
structure RepoOps where
  revparse_ext : String → Option RevparseResult
  checkout_tree_err : String → Option String
  set_head_err : String → Option String
  set_head_detached_err : String → Option String

/-- Mirrors checkout_ref (lines 182-215): resolve the argument via
revparse_ext, returning the not-found error on failure before any
state-changing call; otherwise check out the tree, then update HEAD
symbolically for a branch reference and detached otherwise.  The second
component records the state-changing collaborator calls issued, in order. -/
def checkout_ref (repo : RepoOps) (reference : String) :
    Except String Unit × List RepoEffect :=
  match repo.revparse_ext reference with
  | none => (Except.error ("Reference not found: " ++ reference), [])
  | some res =>
    match repo.checkout_tree_err res.objectId with
    | some e => (Except.error e, [RepoEffect.checkoutTree res.objectId])
    | none =>
      match res.refObj with
      | some gref =>
        if gref.is_branch then
          match repo.set_head_err gref.name with
          | some e => (Except.error e,
              [RepoEffect.checkoutTree res.objectId, RepoEffect.setHead gref.name])
          | none => (Except.ok (),
              [RepoEffect.checkoutTree res.objectId, RepoEffect.setHead gref.name])
        else
          match repo.set_head_detached_err res.objectId with
          | some e => (Except.error e,
              [RepoEffect.checkoutTree res.objectId, RepoEffect.setHeadDetached res.objectId])
          | none => (Except.ok (),
              [RepoEffect.checkoutTree res.objectId, RepoEffect.setHeadDetached res.objectId])
      | none =>
        match repo.set_head_detached_err res.objectId with
        | some e => (Except.error e,
            [RepoEffect.checkoutTree res.objectId, RepoEffect.setHeadDetached res.objectId])
        | none => (Except.ok (),
            [RepoEffect.checkoutTree res.objectId, RepoEffect.setHeadDetached res.objectId])

/-- Example fixture: a branch annotation. -/
def refMain : RefInfo :=
  { name := "main", kind := "branch" }

/-- Example fixture: the ref-carrying tip of a three-commit linear window. -/
def tipCommit : CommitInfo :=
  { oid := "c", parents := ["b"], author := "alice", email := "alice@example.com",
    date := 3, message := "tip", refs := [refMain] }

/-- Example fixture: the middle commit, with no refs, one parent. -/
def midCommit : CommitInfo :=
  { oid := "b", parents := ["a"], author := "bob", email := "bob@example.com",
    date := 2, message := "mid", refs := [] }

/-- Example fixture: the root commit. -/
def rootCommit : CommitInfo :=
  { oid := "a", parents := [], author := "carol", email := "carol@example.com",
    date := 1, message := "root", refs := [] }

/-- Example fixture: a three-commit linear window, newest first. -/
def windowEx : List CommitInfo :=
  [tipCommit, midCommit, rootCommit]

/-- Example fixture: the tip after simplification, re-linked to the root. -/
def tipReduced : CommitInfo :=
  { tipCommit with parents := ["a"] }

/-- Example fixture: a single commit with one out-of-window parent and no
refs, hence not interesting. -/
def plainCommit : CommitInfo :=
  { oid := "y", parents := ["z"], author := "dave", email := "dave@example.com",
    date := 4, message := "plain", refs := [] }

/-- Example fixture: a non-empty window that retains nothing. -/
def windowPlain : List CommitInfo :=
  [plainCommit]

/-- Example fixture: a self-parented commit, a malformed-history cycle. -/
def loopCommit : CommitInfo :=
  { oid := "s", parents := ["s"], author := "erin", email := "erin@example.com",
    date := 5, message := "loop", refs := [] }

/-- Example fixture: a ref-carrying tip whose parent chain is cyclic. -/
def cycTip : CommitInfo :=
  { oid := "t", parents := ["s"], author := "frank", email := "frank@example.com",
    date := 6, message := "cyctip", refs := [refMain] }

/-- Example fixture: a window containing a parent cycle. -/
def windowCyc : List CommitInfo :=
  [cycTip, loopCommit]

/-- Example fixture: a repository in which no argument resolves. -/
def emptyRepo : RepoOps :=
  { revparse_ext := fun _ => none
    checkout_tree_err := fun _ => none
    set_head_err := fun _ => none
    set_head_detached_err := fun _ => none }

/-- Example fixture: a forty-hex-character id not present in emptyRepo. -/
def hex40 : String :=
  "aaaaaaaaaaaaaaaaaaaaaaaaaaaaaaaaaaaaaaaa"

/-- Example fixture: a remote-tracking reference. -/
def remoteRef : GitReference :=
  { name := some "refs/remotes/origin/main", shorthand := some "origin/main",
    target := some "c", is_remote := true, is_tag := false, is_branch := false }

theorem commit_map_mem {cs : List CommitInfo} {r : String} {a : CommitInfo}
    (h : commit_map cs r = some a) : a ∈ cs ∧ a.oid = r := by
  unfold commit_map at h
  have h1 := List.mem_of_find?_eq_some h
  have h2 := List.find?_some h
  exact ⟨List.mem_reverse.mp h1, by simpa using h2⟩

theorem ancestor_walk_cycle {cs : List CommitInfo} {seen : List String} {r : String}
    (h : r ∈ seen) : ancestor_walk cs seen r = WalkExit.cycle := by
  rw [ancestor_walk]; simp [h]

theorem ancestor_walk_stub {cs : List CommitInfo} {seen : List String} {r : String}
    (h : r ∉ seen) (h2 : commit_map cs r = none) :
    ancestor_walk cs seen r = WalkExit.stub r := by
  rw [ancestor_walk]; simp only [h, dite_false, dif_neg, not_false_iff]
  split <;> simp_all

theorem ancestor_walk_resolved {cs : List CommitInfo} {seen : List String} {r : String}
    {a : CommitInfo} (h : r ∉ seen) (h2 : commit_map cs r = some a)
    (hi : interesting a = true) : ancestor_walk cs seen r = WalkExit.resolved r := by
  rw [ancestor_walk]; simp only [h, dite_false, dif_neg, not_false_iff]
  split <;> simp_all

theorem ancestor_walk_step {cs : List CommitInfo} {seen : List String} {r : String}
    {a : CommitInfo} {p : String} {t : List String} (h : r ∉ seen)
    (h2 : commit_map cs r = some a) (hi : interesting a = false) (hp : a.parents = p :: t) :
    ancestor_walk cs seen r = ancestor_walk cs (r :: seen) p := by
  rw [ancestor_walk]; simp only [h, dite_false, dif_neg, not_false_iff]
  split
  · next a' heq =>
    rw [h2] at heq; cases heq
    simp only [hi, if_false, Bool.false_eq_true]
    split <;> simp_all
  · simp_all

theorem ancestor_walk_dead {cs : List CommitInfo} {seen : List String} {r : String}
    {a : CommitInfo} (h : r ∉ seen) (h2 : commit_map cs r = some a)
    (hi : interesting a = false) (hp : a.parents = []) :
    ancestor_walk cs seen r = WalkExit.deadEnd := by
  rw [ancestor_walk]; simp only [h, dite_false, dif_neg, not_false_iff]
  split
  · next a' heq =>
    rw [h2] at heq; cases heq
    simp only [hi, if_false, Bool.false_eq_true]
    split <;> simp_all
  · simp_all

theorem walkFuel_cycle {cs : List CommitInfo} {f : Nat} {seen : List String} {r : String}
    (h : r ∈ seen) : walkFuel cs (f + 1) seen r = some WalkExit.cycle := by
  simp [walkFuel, h]

theorem walkFuel_stub {cs : List CommitInfo} {f : Nat} {seen : List String} {r : String}
    (h : r ∉ seen) (h2 : commit_map cs r = none) :
    walkFuel cs (f + 1) seen r = some (WalkExit.stub r) := by
  simp [walkFuel, h, h2]

theorem walkFuel_resolved {cs : List CommitInfo} {f : Nat} {seen : List String} {r : String}
    {a : CommitInfo} (h : r ∉ seen) (h2 : commit_map cs r = some a)
    (hi : interesting a = true) : walkFuel cs (f + 1) seen r = some (WalkExit.resolved r) := by
  simp [walkFuel, h, h2, hi]

theorem walkFuel_step {cs : List CommitInfo} {f : Nat} {seen : List String} {r : String}
    {a : CommitInfo} {p : String} {t : List String} (h : r ∉ seen)
    (h2 : commit_map cs r = some a) (hi : interesting a = false) (hp : a.parents = p :: t) :
    walkFuel cs (f + 1) seen r = walkFuel cs f (r :: seen) p := by
  simp [walkFuel, h, h2, hi, hp]

theorem walkFuel_dead {cs : List CommitInfo} {f : Nat} {seen : List String} {r : String}
    {a : CommitInfo} (h : r ∉ seen) (h2 : commit_map cs r = some a)
    (hi : interesting a = false) (hp : a.parents = []) :
    walkFuel cs (f + 1) seen r = some WalkExit.deadEnd := by
  simp [walkFuel, h, h2, hi, hp]

theorem card_seen_decrease {cs : List CommitInfo} {seen : List String} {runner : String}
    (h : runner ∉ seen) {a : CommitInfo} (h2 : commit_map cs runner = some a) :
    ((cs.map (fun c => c.oid)).toFinset \ (runner :: seen).toFinset).card
      < ((cs.map (fun c => c.oid)).toFinset \ seen.toFinset).card := by
  simp only [List.toFinset_cons]
  have hmem : runner ∈ (cs.map (fun c => c.oid)).toFinset := by
    obtain ⟨ha, hoid⟩ := commit_map_mem h2
    exact List.mem_toFinset.mpr (hoid ▸ List.mem_map_of_mem _ ha)
  have hsub : (cs.map (fun c => c.oid)).toFinset \ insert runner seen.toFinset
      ⊆ (cs.map (fun c => c.oid)).toFinset \ seen.toFinset := by
    intro x hx
    simp only [Finset.mem_sdiff, Finset.mem_insert, not_or] at hx
    exact Finset.mem_sdiff.mpr ⟨hx.1, hx.2.2⟩
  have hr : runner ∈ (cs.map (fun c => c.oid)).toFinset \ seen.toFinset :=
    Finset.mem_sdiff.mpr ⟨hmem, by simpa using h⟩
  have hnr : runner ∉ (cs.map (fun c => c.oid)).toFinset \ insert runner seen.toFinset := by
    simp
  exact Finset.card_lt_card ((Finset.ssubset_iff_of_subset hsub).mpr ⟨runner, hr, hnr⟩)

theorem walkFuel_complete (cs : List CommitInfo) (seen : List String) (runner : String) :
    ∀ fuel : Nat, walk_bound cs seen ≤ fuel →
      walkFuel cs fuel seen runner = some (ancestor_walk cs seen runner) := by
  induction seen, runner using ancestor_walk.induct cs with
  | case1 seen runner h =>
    intro fuel hf
    match fuel with
    | f + 1 => rw [walkFuel_cycle h, ancestor_walk_cycle h]
  | case2 seen runner h a hm hi =>
    intro fuel hf
    match fuel with
    | 0 => exact absurd hf (by simp [walk_bound])
    | f + 1 => rw [walkFuel_resolved h hm hi, ancestor_walk_resolved h hm hi]
  | case3 seen runner h a hm hni p t hp ih =>
    intro fuel hf
    have hi : interesting a = false := by simpa using hni
    match fuel with
    | 0 => exact absurd hf (by simp [walk_bound])
    | f + 1 =>
      rw [walkFuel_step h hm hi hp, ancestor_walk_step h hm hi hp]
      apply ih
      have hdec := card_seen_decrease h hm
      simp only [walk_bound] at hf ⊢
      omega
  | case4 seen runner h a hm hni hp =>
    intro fuel hf
    have hi : interesting a = false := by simpa using hni
    match fuel with
    | 0 => exact absurd hf (by simp [walk_bound])
    | f + 1 => rw [walkFuel_dead h hm hi hp, ancestor_walk_dead h hm hi hp]
  | case5 seen runner h hm =>
    intro fuel hf
    match fuel with
    | 0 => exact absurd hf (by simp [walk_bound])
    | f + 1 => rw [walkFuel_stub h hm, ancestor_walk_stub h hm]

theorem ancestor_walk_eval {cs : List CommitInfo} {seen : List String} {r : String}
    {e : WalkExit} {fuel : Nat} (hb : walk_bound cs seen ≤ fuel)
    (hw : walkFuel cs fuel seen r = some e) : ancestor_walk cs seen r = e := by
  have h := walkFuel_complete cs seen r fuel hb
  rw [hw] at h
  exact (Option.some.inj h).symm

theorem ancestor_walk_sound (cs : List CommitInfo) (seen : List String) (runner : String) :
    (∀ r, ancestor_walk cs seen runner = WalkExit.resolved r →
        Reach cs runner r ∧ ∃ rc, commit_map cs r = some rc ∧ interesting rc = true)
    ∧ (∀ r, ancestor_walk cs seen runner = WalkExit.stub r →
        Reach cs runner r ∧ commit_map cs r = none) := by
  induction seen, runner using ancestor_walk.induct cs with
  | case1 seen runner h =>
    rw [ancestor_walk_cycle h]
    exact ⟨(fun r hr => by cases hr), (fun r hr => by cases hr)⟩
  | case2 seen runner h a hm hi =>
    rw [ancestor_walk_resolved h hm hi]
    refine ⟨fun r hr => ?_, fun r hr => by cases hr⟩
    cases hr
    exact ⟨Reach.refl runner, a, hm, hi⟩
  | case3 seen runner h a hm hni p t hp ih =>
    have hi : interesting a = false := by simpa using hni
    rw [ancestor_walk_step h hm hi hp]
    have hhead : a.parents.head? = some p := by rw [hp]; rfl
    refine ⟨fun r hr => ?_, fun r hr => ?_⟩
    · obtain ⟨hreach, hrc⟩ := ih.1 r hr
      exact ⟨Reach.step runner p r a hm hi hhead hreach, hrc⟩
    · obtain ⟨hreach, hrc⟩ := ih.2 r hr
      exact ⟨Reach.step runner p r a hm hi hhead hreach, hrc⟩
  | case4 seen runner h a hm hni hp =>
    have hi : interesting a = false := by simpa using hni
    rw [ancestor_walk_dead h hm hi hp]
    exact ⟨(fun r hr => by cases hr), (fun r hr => by cases hr)⟩
  | case5 seen runner h hm =>
    rw [ancestor_walk_stub h hm]
    refine ⟨(fun r hr => by cases hr), (fun r hr => ?_)⟩
    cases hr
    exact ⟨Reach.refl runner, hm⟩

theorem resolve_parent_sound {cs : List CommitInfo} {p r : String}
    (h : resolve_parent cs p = some r) :
    Reach cs p r ∧
      ((∃ rc, commit_map cs r = some rc ∧ interesting rc = true) ∨ commit_map cs r = none) := by
  unfold resolve_parent at h
  cases he : ancestor_walk cs [] p <;> rw [he] at h
  · cases h
    obtain ⟨hreach, hrc⟩ := (ancestor_walk_sound cs [] p).1 _ he
    exact ⟨hreach, Or.inl hrc⟩
  · cases h
    obtain ⟨hreach, hrc⟩ := (ancestor_walk_sound cs [] p).2 _ he
    exact ⟨hreach, Or.inr hrc⟩
  · cases h
  · cases h

theorem resolve_parent_of_interesting {cs : List CommitInfo} {p : String} {pc : CommitInfo}
    (h : commit_map cs p = some pc) (hi : interesting pc = true) :
    resolve_parent cs p = some p := by
  unfold resolve_parent
  rw [ancestor_walk_resolved (List.not_mem_nil p) h hi]

theorem resolve_parent_of_missing {cs : List CommitInfo} {p : String}
    (h : commit_map cs p = none) : resolve_parent cs p = some p := by
  unfold resolve_parent
  rw [ancestor_walk_stub (List.not_mem_nil p) h]

theorem resolve_parent_of_cycle {cs : List CommitInfo} {p : String}
    (h : ancestor_walk cs [] p = WalkExit.cycle) : resolve_parent cs p = none := by
  unfold resolve_parent
  rw [h]

theorem mem_dedupConsec {a : String} : ∀ {l : List String}, a ∈ dedupConsec l ↔ a ∈ l := by
  intro l
  induction l with
  | nil => simp [dedupConsec]
  | cons x t ih =>
    cases t with
    | nil => simp [dedupConsec]
    | cons y rest =>
      by_cases hxy : (x == y) = true
      · have hx : x = y := by simpa using hxy
        rw [show dedupConsec (x :: y :: rest) = dedupConsec (y :: rest) by
          simp [dedupConsec, hxy]]
        rw [ih]
        subst hx
        simp
      · rw [show dedupConsec (x :: y :: rest) = x :: dedupConsec (y :: rest) by
          simp [dedupConsec, hxy]]
        simp [ih]

theorem sorted_lt_dedupConsec : ∀ {l : List String}, l.Sorted (· ≤ ·) →
    (dedupConsec l).Sorted (· < ·) := by
  intro l
  induction l with
  | nil => simp [dedupConsec]
  | cons x t ih =>
    cases t with
    | nil => simp [dedupConsec]
    | cons y rest =>
      intro hs
      have hxy_le : x ≤ y := (List.sorted_cons.mp hs).1 y (by simp)
      have htail : (y :: rest).Sorted (· ≤ ·) := (List.sorted_cons.mp hs).2
      by_cases hxy : (x == y) = true
      · rw [show dedupConsec (x :: y :: rest) = dedupConsec (y :: rest) by
          simp [dedupConsec, hxy]]
        exact ih htail
      · have hne : x ≠ y := by simpa using hxy
        have hlt : x < y := lt_of_le_of_ne hxy_le hne
        rw [show dedupConsec (x :: y :: rest) = x :: dedupConsec (y :: rest) by
          simp [dedupConsec, hxy]]
        rw [List.sorted_cons]
        refine ⟨fun b hb => ?_, ih htail⟩
        have hbmem : b ∈ y :: rest := mem_dedupConsec.mp hb
        have hyb : y ≤ b := by
          rcases List.mem_cons.mp hbmem with h | h
          · subst h; exact le_refl b
          · exact (List.sorted_cons.mp htail).1 b h
        exact lt_of_lt_of_le hlt hyb

theorem nodup_dedupConsec {l : List String} (h : l.Sorted (· ≤ ·)) :
    (dedupConsec l).Nodup :=
  List.Pairwise.imp (fun hlt => ne_of_lt hlt) (sorted_lt_dedupConsec h)

theorem sorted_le_dedupConsec {l : List String} (h : l.Sorted (· ≤ ·)) :
    (dedupConsec l).Sorted (· ≤ ·) :=
  List.Pairwise.imp (fun hlt => le_of_lt hlt) (sorted_lt_dedupConsec h)

theorem reduce_commit_parents_sorted (cs : List CommitInfo) (c : CommitInfo) :
    (reduce_commit cs c).parents.Nodup ∧ (reduce_commit cs c).parents.Sorted (· ≤ ·) := by
  have hs : (List.insertionSort (fun a b : String => a ≤ b)
      (c.parents.filterMap (resolve_parent cs))).Sorted (· ≤ ·) :=
    List.sorted_insertionSort _ _
  exact ⟨nodup_dedupConsec hs, sorted_le_dedupConsec hs⟩

theorem mem_reduce_commit_parents {cs : List CommitInfo} {c : CommitInfo} {p : String} :
    p ∈ (reduce_commit cs c).parents ↔ ∃ q ∈ c.parents, resolve_parent cs q = some p := by
  show p ∈ dedupConsec _ ↔ _
  rw [mem_dedupConsec, (List.perm_insertionSort _ _).mem_iff]
  simp [List.mem_filterMap]

theorem mem_simplified_commits {cs : List CommitInfo} {d : CommitInfo} :
    d ∈ simplified_commits cs ↔ ∃ c ∈ cs, interesting c = true ∧ d = reduce_commit cs c := by
  simp only [simplified_commits, List.mem_filterMap]
  constructor
  · rintro ⟨c, hc, hf⟩
    by_cases hi : interesting c = true
    · rw [if_pos hi] at hf
      exact ⟨c, hc, hi, (Option.some.inj hf).symm⟩
    · rw [if_neg hi] at hf
      cases hf
  · rintro ⟨c, hc, hi, rfl⟩
    exact ⟨c, hc, by rw [if_pos hi]⟩

theorem length_parents_of_not_interesting {c : CommitInfo} (h : interesting c = false) :
    c.parents.length = 1 := by
  unfold interesting at h
  rw [Bool.or_eq_false_iff, Bool.or_eq_false_iff] at h
  obtain ⟨⟨hrefs, hlen⟩, hemp⟩ := h
  have hlen2 : ¬ c.parents.length > 1 := by simpa using hlen
  have hne : c.parents ≠ [] := by
    intro hnil
    rw [hnil] at hemp
    simp at hemp
  have hpos : 0 < c.parents.length := List.length_pos.mpr hne
  omega

theorem walk_mid_eval : ancestor_walk windowEx [] "b" = WalkExit.resolved "a" :=
  @ancestor_walk_eval windowEx [] "b" (WalkExit.resolved "a") 8 (by decide) (by decide)

theorem walk_cyc_eval : ancestor_walk windowCyc [] "s" = WalkExit.cycle :=
  @ancestor_walk_eval windowCyc [] "s" WalkExit.cycle 8 (by decide) (by decide)

theorem resolve_mid_eval : resolve_parent windowEx "b" = some "a" := by
  unfold resolve_parent
  rw [walk_mid_eval]

theorem reduce_tip_eval : reduce_commit windowEx tipCommit = tipReduced := by
  have h1 : tipCommit.parents.filterMap (resolve_parent windowEx) = ["a"] := by
    show List.filterMap _ ["b"] = ["a"]
    rw [List.filterMap_cons, resolve_mid_eval, List.filterMap_nil]
  unfold reduce_commit
  rw [h1]
  rfl

theorem reduce_root_eval : reduce_commit windowEx rootCommit = rootCommit := by
  unfold reduce_commit
  rfl

theorem simplified_windowEx_eval : simplified_commits windowEx = [tipReduced, rootCommit] := by
  have hit : interesting tipCommit = true := by decide
  have him : interesting midCommit = false := by decide
  have hir : interesting rootCommit = true := by decide
  show List.filterMap _ [tipCommit, midCommit, rootCommit] = _
  rw [List.filterMap_cons, List.filterMap_cons, List.filterMap_cons, List.filterMap_nil]
  simp only [hit, him, hir, if_true, if_false, Bool.false_eq_true, reduce_tip_eval,
    reduce_root_eval]

theorem get_windowEx_eval : get_commits windowEx = [tipReduced, rootCommit] := by
  unfold get_commits
  rw [simplified_windowEx_eval]
  rfl

theorem simplified_windowPlain_eval : simplified_commits windowPlain = [] := by
  have h : interesting plainCommit = false := by decide
  simp [simplified_commits, windowPlain, h]

/-- Claim C1: for every commit in the loaded window, get_commits retains it
in the simplified output iff it has at least one ref annotation, or two or
more parents, or zero parents (the interesting predicate); no other commit
is retained and every retained commit is interesting.  Stated for a window
with pairwise distinct ids, as produced by the id-deduplicated revwalk. -/
theorem c1_retained_iff_interesting (cs : List CommitInfo)
    (hnd : (cs.map (fun c => c.oid)).Nodup) (c : CommitInfo) (hc : c ∈ cs) :
    (∃ d ∈ simplified_commits cs, d.oid = c.oid) ↔ interesting c = true := by
  constructor
  · rintro ⟨d, hd, hoid⟩
    obtain ⟨c2, hc2, hi2, rfl⟩ := mem_simplified_commits.mp hd
    have hoid2 : c2.oid = c.oid := hoid
    have heq : c2 = c := List.inj_on_of_nodup_map hnd hc2 hc hoid2
    subst heq
    exact hi2
  · intro hi
    exact ⟨reduce_commit cs c, mem_simplified_commits.mpr ⟨c, hc, hi, rfl⟩, rfl⟩

/-- Witness for C1 at the three-commit linear window and its tip. -/
theorem c1_witness :
    (windowEx.map (fun c => c.oid)).Nodup ∧ tipCommit ∈ windowEx ∧
      ((∃ d ∈ simplified_commits windowEx, d.oid = tipCommit.oid)
        ↔ interesting tipCommit = true) :=
  ⟨by decide, by decide, c1_retained_iff_interesting windowEx (by decide) tipCommit (by decide)⟩

/-- Claim C2: each original parent id of a retained commit resolves
independently: the resolved parent is reachable from the original parent
along first parents of non-interesting in-window commits only; it is either
an interesting in-window commit or an id absent from the window map used
verbatim as an edge stub; an in-window interesting parent is kept itself,
and an out-of-window parent is kept verbatim. -/
theorem c2_parent_resolution (cs : List CommitInfo) (p r : String)
    (h : resolve_parent cs p = some r) :
    Reach cs p r
    ∧ ((∃ rc, commit_map cs r = some rc ∧ interesting rc = true) ∨ commit_map cs r = none)
    ∧ (∀ pc, commit_map cs p = some pc → interesting pc = true → r = p)
    ∧ (commit_map cs p = none → r = p) := by
  obtain ⟨hreach, hcase⟩ := resolve_parent_sound h
  refine ⟨hreach, hcase, ?_, ?_⟩
  · intro pc hpc hipc
    have h2 := resolve_parent_of_interesting hpc hipc
    rw [h] at h2
    exact Option.some.inj h2
  · intro hn
    have h2 := resolve_parent_of_missing hn
    rw [h] at h2
    exact Option.some.inj h2

/-- Witness for C2: in the linear window the skipped middle parent resolves
to the root. -/
theorem c2_witness :
    resolve_parent windowEx "b" = some "a" ∧
      (Reach windowEx "b" "a"
        ∧ ((∃ rc, commit_map windowEx "a" = some rc ∧ interesting rc = true)
            ∨ commit_map windowEx "a" = none)
        ∧ (∀ pc, commit_map windowEx "b" = some pc → interesting pc = true → "a" = "b")
        ∧ (commit_map windowEx "b" = none → "a" = "b")) :=
  ⟨resolve_mid_eval, c2_parent_resolution windowEx "b" "a" resolve_mid_eval⟩

/-- Claim C3: for every commit of the simplified output, every resolved
parent id is either the id of some commit of the output, or absent from the
window map entirely; an id that is in the map but not interesting never
occurs as a resolved parent. -/
theorem c3_no_dangling_edges (cs : List CommitInfo) (c : CommitInfo)
    (hc : c ∈ simplified_commits cs) (p : String) (hp : p ∈ c.parents) :
    ((∃ d ∈ simplified_commits cs, d.oid = p) ∨ commit_map cs p = none)
    ∧ (∀ pc, commit_map cs p = some pc → interesting pc = true) := by
  obtain ⟨c0, hc0, hi0, rfl⟩ := mem_simplified_commits.mp hc
  obtain ⟨q, hq, hres⟩ := mem_reduce_commit_parents.mp hp
  obtain ⟨hreach, hcase⟩ := resolve_parent_sound hres
  rcases hcase with ⟨rc, hrc, hirc⟩ | hnone
  · obtain ⟨hrcmem, hrcoid⟩ := commit_map_mem hrc
    refine ⟨Or.inl ⟨reduce_commit cs rc,
      mem_simplified_commits.mpr ⟨rc, hrcmem, hirc, rfl⟩, hrcoid⟩, ?_⟩
    intro pc hpc
    rw [hrc] at hpc
    cases hpc
    exact hirc
  · refine ⟨Or.inr hnone, ?_⟩
    intro pc hpc
    rw [hnone] at hpc
    cases hpc

/-- Witness for C3 at the reduced tip of the linear window and its resolved
parent, the root id. -/
theorem c3_witness :
    tipReduced ∈ simplified_commits windowEx ∧ "a" ∈ tipReduced.parents ∧
      (((∃ d ∈ simplified_commits windowEx, d.oid = "a") ∨ commit_map windowEx "a" = none)
        ∧ (∀ pc, commit_map windowEx "a" = some pc → interesting pc = true)) := by
  have h1 : tipReduced ∈ simplified_commits windowEx := by
    rw [simplified_windowEx_eval]; simp
  have h2 : "a" ∈ tipReduced.parents := by decide
  exact ⟨h1, h2, c3_no_dangling_edges windowEx tipReduced h1 "a" h2⟩

/-- Claim C4: every commit returned by get_commits has a parent list with
no duplicates, sorted ascending; this includes the nonempty-window fallback,
where every returned commit is non-interesting and hence has exactly one
parent. -/
theorem c4_parents_nodup_sorted (cs : List CommitInfo) (c : CommitInfo)
    (hc : c ∈ get_commits cs) : c.parents.Nodup ∧ c.parents.Sorted (· ≤ ·) := by
  unfold get_commits at hc
  by_cases hcond : ((simplified_commits cs).isEmpty && !cs.isEmpty) = true
  · rw [if_pos hcond] at hc
    have hempty : simplified_commits cs = [] := by
      have h1 := (Bool.and_eq_true _ _).mp hcond
      exact List.isEmpty_iff.mp h1.1
    have hni : interesting c = false := by
      cases hq : interesting c with
      | false => rfl
      | true =>
        exfalso
        have hmem : reduce_commit cs c ∈ simplified_commits cs :=
          mem_simplified_commits.mpr ⟨c, hc, hq, rfl⟩
        rw [hempty] at hmem
        cases hmem
    have hlen := length_parents_of_not_interesting hni
    obtain ⟨p, hp⟩ := List.length_eq_one.mp hlen
    rw [hp]
    exact ⟨List.nodup_singleton p, List.sorted_singleton p⟩
  · rw [if_neg hcond] at hc
    obtain ⟨c0, hc0, hi0, rfl⟩ := mem_simplified_commits.mp hc
    exact reduce_commit_parents_sorted cs c0

/-- Witness for C4 at the reduced tip of the linear window. -/
theorem c4_witness :
    tipReduced ∈ get_commits windowEx ∧
      (tipReduced.parents.Nodup ∧ tipReduced.parents.Sorted (· ≤ ·)) := by
  have h1 : tipReduced ∈ get_commits windowEx := by
    rw [get_windowEx_eval]; simp
  exact ⟨h1, c4_parents_nodup_sorted windowEx tipReduced h1⟩

/-- Claim C5: when the input window is non-empty and simplification retains
zero commits, get_commits returns the entire unsimplified window, so a
non-empty input yields a non-empty output. -/
theorem c5_nonempty_fallback (cs : List CommitInfo) (hne : cs ≠ [])
    (hempty : simplified_commits cs = []) :
    get_commits cs = cs ∧ get_commits cs ≠ [] := by
  unfold get_commits
  have h1 : (simplified_commits cs).isEmpty = true := by rw [hempty]; rfl
  have h2 : cs.isEmpty = false := by
    cases cs with
    | nil => exact absurd rfl hne
    | cons a t => rfl
  rw [h1, h2]
  exact ⟨rfl, hne⟩

/-- Witness for C5 at the single-commit window that retains nothing. -/
theorem c5_witness :
    windowPlain ≠ [] ∧ simplified_commits windowPlain = [] ∧
      (get_commits windowPlain = windowPlain ∧ get_commits windowPlain ≠ []) :=
  ⟨by decide, simplified_windowPlain_eval,
    c5_nonempty_fallback windowPlain (by decide) simplified_windowPlain_eval⟩

/-- Claim C6: the ancestor walk for one parent always terminates, also on a
cyclic parent chain: running the loop with fuel equal to the number of
distinct window ids not yet seen plus one already finishes (so each id is
visited at most once and the step count is bounded by the final seen-set
size plus one); a previously visited id stops the walk immediately via the
cycle guard; and a cycle exit adds no resolved parent, the edge is dropped
without failing. -/
theorem c6_walk_termination (cs : List CommitInfo) (seen : List String) (runner : String) :
    walkFuel cs (walk_bound cs seen) seen runner = some (ancestor_walk cs seen runner)
    ∧ (runner ∈ seen → ancestor_walk cs seen runner = WalkExit.cycle)
    ∧ (ancestor_walk cs [] runner = WalkExit.cycle → resolve_parent cs runner = none) :=
  ⟨walkFuel_complete cs seen runner _ le_rfl,
    (fun h => ancestor_walk_cycle h),
    (fun h => resolve_parent_of_cycle h)⟩

/-- Witness for C6 at the self-parented cyclic window. -/
theorem c6_witness :
    "s" ∈ ["s"] ∧ ancestor_walk windowCyc ["s"] "s" = WalkExit.cycle ∧
      ancestor_walk windowCyc [] "s" = WalkExit.cycle ∧
      resolve_parent windowCyc "s" = none :=
  ⟨by decide, (c6_walk_termination windowCyc ["s"] "s").2.1 (by decide),
    walk_cyc_eval, (c6_walk_termination windowCyc [] "s").2.2 walk_cyc_eval⟩

/-- Claim C7 (counterexample): the claim says the annotation appended for a
resolved HEAD has kind "head"; the code appends kind "HEAD".  With no
references and HEAD resolved to commit "t", the commit receives exactly one
annotation, whose kind is "HEAD", and no annotation with kind "head". -/
theorem c7_head_kind_counterexample :
    ref_annotations_at [] (some "t") "t" = [{ name := "HEAD", kind := "HEAD" }]
    ∧ ∀ a ∈ ref_annotations_at [] (some "t") "t", a.kind ≠ "head" := by
  constructor
  · rfl
  · decide

/-- Claim C7 (amended): ref classification assigns kinds with precedence
remote-tracking to "remote", else tag to "tag", else branch to "branch",
else "other"; and a resolved HEAD is always appended as an additional
annotation with kind "HEAD" on its target commit, after any branch or tag
annotation that commit already carries. -/
theorem c7_ref_classification (refs : List GitReference) (h : String) (r : GitReference) :
    (r.is_remote = true → ref_kind r = "remote")
    ∧ (r.is_remote = false → r.is_tag = true → ref_kind r = "tag")
    ∧ (r.is_remote = false → r.is_tag = false → r.is_branch = true → ref_kind r = "branch")
    ∧ (r.is_remote = false → r.is_tag = false → r.is_branch = false → ref_kind r = "other")
    ∧ ref_annotations_at refs (some h) h
        = ref_annotations_at refs none h ++ [{ name := "HEAD", kind := "HEAD" }] := by
  refine ⟨?_, ?_, ?_, ?_, ?_⟩
  · intro h1; simp [ref_kind, h1]
  · intro h1 h2; simp [ref_kind, h1, h2]
  · intro h1 h2 h3; simp [ref_kind, h1, h2, h3]
  · intro h1 h2 h3; simp [ref_kind, h1, h2, h3]
  · simp [ref_annotations_at]

/-- Witness for C7 at a remote-tracking reference. -/
theorem c7_witness :
    remoteRef.is_remote = true ∧ ref_kind remoteRef = "remote" :=
  ⟨rfl, (c7_ref_classification [] "x" remoteRef).1 rfl⟩

/-- Claim C8: an argument that revparse_ext cannot resolve (neither a
symbolic ref nor a commit id) makes checkout_ref return the error
string with the argument interpolated verbatim, and no state-changing
collaborator call (checkout or HEAD update) is issued, so the repository
state is unchanged. -/
theorem c8_checkout_not_found (repo : RepoOps) (reference : String)
    (h : repo.revparse_ext reference = none) :
    checkout_ref repo reference
      = (Except.error ("Reference not found: " ++ reference), ([] : List RepoEffect)) := by
  unfold checkout_ref
  rw [h]

/-- Witness for C8: a forty-hex id unknown to the repository. -/
theorem c8_witness :
    emptyRepo.revparse_ext hex40 = none ∧
      checkout_ref emptyRepo hex40
        = (Except.error ("Reference not found: " ++ hex40), ([] : List RepoEffect)) :=
  ⟨rfl, c8_checkout_not_found emptyRepo hex40 rfl⟩

/-- Claim C9: the dead-end exit of the ancestor walk (an in-window ancestor
that is not interesting and has no parents) is unreachable: every
non-interesting commit has exactly one parent (no parents would make it a
root and two or more a merge, both interesting), so the walk only ends by
resolving a parent, emitting a stub, or hitting the cycle guard. -/
theorem c9_no_dead_end (cs : List CommitInfo) :
    (∀ c : CommitInfo, interesting c = false → c.parents.length = 1)
    ∧ ∀ (seen : List String) (runner : String),
        ancestor_walk cs seen runner ≠ WalkExit.deadEnd := by
  refine ⟨(fun c h => length_parents_of_not_interesting h), ?_⟩
  intro seen runner
  induction seen, runner using ancestor_walk.induct cs with
  | case1 seen runner h => rw [ancestor_walk_cycle h]; simp
  | case2 seen runner h a hm hi => rw [ancestor_walk_resolved h hm hi]; simp
  | case3 seen runner h a hm hni p t hp ih =>
    have hi2 : interesting a = false := by simpa using hni
    rw [ancestor_walk_step h hm hi2 hp]
    exact ih
  | case4 seen runner h a hm hni hp =>
    exact absurd (by simp [interesting, hp]) hni
  | case5 seen runner h hm => rw [ancestor_walk_stub h hm]; simp

/-- Witness for C9 at the non-interesting middle commit. -/
theorem c9_witness :
    interesting midCommit = false ∧ midCommit.parents.length = 1 :=
  ⟨by decide, (c9_no_dead_end windowEx).1 midCommit (by decide)⟩

/-- Claim C10: simplification rewrites only the parents field: forgetting
parents, the output of get_commits is a sublist of the input window (same
relative order), and every output commit agrees with some input commit on
oid, author, email, date, message and refs. -/
theorem c10_frame_only_parents (cs : List CommitInfo) :
    ((get_commits cs).map eraseParents).Sublist (cs.map eraseParents)
    ∧ ∀ d ∈ get_commits cs, ∃ c ∈ cs, d.oid = c.oid ∧ d.author = c.author
        ∧ d.email = c.email ∧ d.date = c.date ∧ d.message = c.message ∧ d.refs = c.refs := by
  have hsub : ∀ l : List CommitInfo,
      ((l.filterMap (fun commit =>
          if interesting commit then some (reduce_commit cs commit) else none)).map
        eraseParents).Sublist (l.map eraseParents) := by
    intro l
    induction l with
    | nil => simp
    | cons x t ih =>
      by_cases hi : interesting x = true
      · simp only [List.filterMap_cons, hi, if_true, List.map_cons]
        exact List.Sublist.cons₂ _ ih
      · have hi2 : interesting x = false := by simpa using hi
        simp only [List.filterMap_cons, hi2, List.map_cons, Bool.false_eq_true, if_false]
        exact List.Sublist.cons _ ih
  constructor
  · unfold get_commits
    split
    · exact List.Sublist.refl _
    · exact hsub cs
  · intro d hd
    unfold get_commits at hd
    split at hd
    · exact ⟨d, hd, rfl, rfl, rfl, rfl, rfl, rfl⟩
    · obtain ⟨c0, hc0, hi0, rfl⟩ := mem_simplified_commits.mp hd
      exact ⟨c0, hc0, rfl, rfl, rfl, rfl, rfl, rfl⟩

/-- Witness for C10 at the reduced tip of the linear window. -/
theorem c10_witness :
    tipReduced ∈ get_commits windowEx ∧
      ∃ c ∈ windowEx, tipReduced.oid = c.oid ∧ tipReduced.author = c.author
        ∧ tipReduced.email = c.email ∧ tipReduced.date = c.date
        ∧ tipReduced.message = c.message ∧ tipReduced.refs = c.refs := by
  have h1 : tipReduced ∈ get_commits windowEx := by
    rw [get_windowEx_eval]; simp
  exact ⟨h1, (c10_frame_only_parents windowEx).2 tipReduced h1⟩
